import Mathlib

/-!
Verification of the analysis-output normalization pipeline of the
dart-analysis-panel extension (src/dartAnalysisPanel.ts).

The TypeScript source is shallowly embedded below:
* JavaScript values produced by JSON.parse are modeled by the inductive `Json`
  (numbers restricted to integers, which is all the analyzer payloads use);
  `undefined` is modeled as `Option.none`.
* JavaScript exceptions (property access on `null`, calling a string method on
  a non-string, `forEach` on a non-array) are modeled with `Except Unit`.
  Because the record type `AnalysisIssue` is string/int typed, a payload that
  would store a non-string code/message or a non-numeric line into the record
  is likewise modeled as a decode failure.
* Node's `path.relative` resolves both arguments against the current working
  directory, so the embedding threads an explicit `cwd` argument everywhere
  the source calls `path.relative`.
-/

/-- Severity taxonomy of `AnalysisIssue` (the union type in the source). -/
inductive Sev where
  | error
  | warning
  | info
  | hint
deriving DecidableEq, Repr

/-- JavaScript values obtainable from `JSON.parse`. -/
inductive Json where
  | null
  | bool (b : Bool)
  | num (n : Int)
  | str (s : String)
  | arr (elems : List Json)
  | obj (fields : List (String × Json))

/-- Discriminator for the `null` value. -/
def Json.isNull : Json → Bool
  | .null => true
  | _ => false

/-- The normalized issue record (interface `AnalysisIssue` in the source). -/
structure AnalysisIssue where
  severity : Sev
  code : String
  message : String
  file : String
  line : Int
  column : Int
deriving DecidableEq, Repr

/-- JavaScript truthiness of a defined value. -/
def truthyJ : Json → Bool
  | .null => false
  | .bool b => b
  | .num n => n ≠ 0
  | .str s => s ≠ ""
  | .arr _ => true
  | .obj _ => true

/-- JavaScript truthiness, with `none` standing for `undefined`. -/
def truthy : Option Json → Bool
  | none => false
  | some j => truthyJ j

/-- JavaScript `a || b`. -/
def jsOr (a b : Option Json) : Option Json :=
  if truthy a then a else b

/-- Object-field lookup used for property access on a non-null value:
primitives and arrays have none of the accessed properties, objects are
keyed lists. -/
def lookupField : List (String × Json) → String → Option Json
  | [], _ => none
  | (k, v) :: rest, key => if k = key then some v else lookupField rest key

/-- Property access `j.k` on a value known not to be `null` (on primitives it
yields `undefined`). -/
def jsGetV (j : Json) (k : String) : Option Json :=
  match j with
  | .obj fields => lookupField fields k
  | _ => none

/-- Optional chaining `v?.k`: `undefined` when the receiver is
`undefined`/`null`, plain property access otherwise. -/
def optChainField (v : Option Json) (k : String) : Option Json :=
  match v with
  | none => none
  | some .null => none
  | some j => jsGetV j k

/-- A value that the source stores into a string-typed field; a non-string
is modeled as a failure (see the header comment). -/
def expectStr : Option Json → Except Unit String
  | some (.str s) => .ok s
  | _ => .error ()

/-- A value that the source stores into a number-typed field. -/
def expectNum : Option Json → Except Unit Int
  | some (.num n) => .ok n
  | _ => .error ()

/-- ASCII lower-casing of one character, as `String.prototype.toLowerCase`
acts on the ASCII range (the only range the severity keywords use). -/
def charLower (c : Char) : Char :=
  if 'A' ≤ c ∧ c ≤ 'Z' then Char.ofNat (c.toNat + 32) else c

/-- `severity.toLowerCase()` on a genuine string. -/
def strToLower (s : String) : String :=
  ⟨s.data.map charLower⟩

/-- `_mapSeverity` of the source, as the total function on strings that the
TypeScript signature declares. -/
def mapSeverityStr (s : String) : Sev :=
  if strToLower s = "error" ∨ strToLower s = "fatal" then .error
  else if strToLower s = "warning" ∨ strToLower s = "warn" then .warning
  else if strToLower s = "info" ∨ strToLower s = "information" then .info
  else .hint

/-- `_mapSeverity` as reached from `_parseIssue`, where the argument is the
untyped `issue.severity || issue.level`: `toLowerCase` on anything but a
string throws. -/
def mapSeverityJs (v : Option Json) : Except Unit Sev :=
  match v with
  | some (.str s) => .ok (mapSeverityStr s)
  | _ => .error ()

/-- JavaScript `s.startsWith(pre)`. -/
def strStartsWith (s pre : String) : Bool :=
  pre.data.isPrefixOf s.data

/-- JavaScript `s.endsWith(suf)`. -/
def strEndsWith (s suf : String) : Bool :=
  suf.data.isSuffixOf s.data

/-- Split a character list at every occurrence of `c` (semantics of
`String.prototype.split` with a one-character separator). -/
def splitOnChar (c : Char) : List Char → List (List Char)
  | [] => [[]]
  | a :: rest =>
    if a = c then [] :: splitOnChar c rest
    else
      match splitOnChar c rest with
      | [] => [[a]]
      | g :: gs => (a :: g) :: gs

/-- Path segments of a POSIX path string: split on slashes, drop empties. -/
def segsOf (s : String) : List (List Char) :=
  (splitOnChar '/' s.data).filter (fun g => g ≠ [])

/-- Whether a path string is absolute (its first character is a slash). -/
def isAbs (s : String) : Bool :=
  s.data.head? = some '/'

/-- Normalization pass of Node `path.posix.resolve` over segments already
anchored at the root: `.` is dropped, `..` pops the last segment. -/
def resolveSegs (acc : List (List Char)) : List (List Char) → List (List Char)
  | [] => acc
  | s :: rest =>
    if s = ['.'] then resolveSegs acc rest
    else if s = ['.', '.'] then resolveSegs acc.dropLast rest
    else resolveSegs (acc ++ [s]) rest

/-- Node `path.posix.resolve(cwd, p)` as a segment list: a relative path is
resolved against the current working directory. -/
def pathResolve (cwd p : String) : List (List Char) :=
  if isAbs p then resolveSegs [] (segsOf p)
  else resolveSegs [] (segsOf cwd ++ segsOf p)

/-- Drop the longest common prefix of two segment lists, returning both
remainders. -/
def dropCommon : List (List Char) → List (List Char) → List (List Char) × List (List Char)
  | a :: as, b :: bs => if a = b then dropCommon as bs else (a :: as, b :: bs)
  | as, bs => (as, bs)

/-- Join segments with slashes. -/
def joinSegs : List (List Char) → List Char
  | [] => []
  | [s] => s
  | s :: rest => s ++ '/' :: joinSegs rest

/-- Node `path.posix.relative(fr, to)` under working directory `cwd`: resolve
both, drop the common prefix, climb with `..` and descend with the rest. -/
def pathRelative (cwd fr dst : String) : String :=
  ⟨joinSegs ((dropCommon (pathResolve cwd fr) (pathResolve cwd dst)).1.map (fun _ => ['.', '.'])
    ++ (dropCommon (pathResolve cwd fr) (pathResolve cwd dst)).2)⟩

/-- The path normalization applied inside `_parseIssue`:
`file.startsWith(workspaceRoot) ? path.relative(workspaceRoot, file) : file`. -/
def normalizePath (cwd root rawPath : String) : String :=
  if strStartsWith rawPath root then pathRelative cwd root rawPath else rawPath

/-- `_parseIssue` of the source. Property access on a `null` issue throws
(the first access, `issue.severity`, already does, so the guard is hoisted). -/
def parseIssue (issue : Json) (root cwd : String) : Except Unit AnalysisIssue :=
  if issue.isNull then .error () else
  match mapSeverityJs (jsOr (jsGetV issue "severity") (jsGetV issue "level")) with
  | .error _ => .error ()
  | .ok sev =>
    let loc := jsGetV issue "location"
    match expectStr (jsOr (jsOr (optChainField loc "file") (jsGetV issue "file"))
        (some (Json.str ""))) with
    | .error _ => .error ()
    | .ok file =>
      let relativeFile := normalizePath cwd root file
      match expectStr (jsOr (jsOr (jsGetV issue "code") (jsGetV issue "errorCode"))
          (some (Json.str "unknown"))) with
      | .error _ => .error ()
      | .ok code =>
        match expectStr (jsOr (jsOr (jsGetV issue "message") (jsGetV issue "problemMessage"))
            (some (Json.str ""))) with
        | .error _ => .error ()
        | .ok message =>
          match expectNum (jsOr (jsOr (optChainField loc "startLine") (jsGetV issue "line"))
              (some (Json.num 1))) with
          | .error _ => .error ()
          | .ok line =>
            match expectNum (jsOr (jsOr (optChainField loc "startColumn") (jsGetV issue "column"))
                (some (Json.num 1))) with
            | .error _ => .error ()
            | .ok column =>
              .ok ⟨sev, code, message, relativeFile, line, column⟩

/-- `forEach` with `push` of decoded elements; a thrown element aborts the
whole decode. -/
def decodeEach (root cwd : String) : List Json → Except Unit (List AnalysisIssue)
  | [] => .ok []
  | x :: xs =>
    match parseIssue x root cwd with
    | .error e => .error e
    | .ok i =>
      match decodeEach root cwd xs with
      | .error e => .error e
      | .ok rest => .ok (i :: rest)

/-- `Array.isArray`. -/
def isArr : Json → Bool
  | .arr _ => true
  | _ => false

/-- `_parseJsonOutput` of the source: single-issue shape, then array shape,
then wrapped-diagnostics shape, else the empty list. Reading a property of a
`null` payload throws; `forEach` on a truthy non-array `diagnostics` throws. -/
def parseJsonOutput (j : Json) (root cwd : String) : Except Unit (List AnalysisIssue) :=
  if j.isNull then .error () else
  if truthy (jsGetV j "severity") ∧ truthy (jsGetV j "code") then
    match parseIssue j root cwd with
    | .error e => .error e
    | .ok i => .ok [i]
  else
    match j with
    | .arr elems => decodeEach root cwd elems
    | _ =>
      match jsGetV j "diagnostics" with
      | some (Json.arr elems) => decodeEach root cwd elems
      | some d => if truthyJ d then .error () else .ok []
      | none => .ok []

/-- JavaScript regex `\s`, restricted to the ASCII range. -/
def isWsChar (c : Char) : Bool :=
  c = ' ' ∨ c = '\t' ∨ c = '\n' ∨ c = '\r' ∨ c = '\x0b' ∨ c = '\x0c'

/-- JavaScript regex `\d`. -/
def isDigitChar (c : Char) : Bool :=
  '0' ≤ c ∧ c ≤ '9'

/-- Greedy `\s+`: the remainders after consuming a nonempty whitespace
prefix, longest consumption first (backtracking priority order). -/
def wsRuns (l : List Char) : List (List Char) :=
  let n := (l.takeWhile isWsChar).length
  (List.range n).map (fun i => l.drop (n - i))

/-- Lazy `(.+?)`: (capture, remainder) pairs, shortest capture first. -/
def lazyPrefixes (l : List Char) : List (List Char × List Char) :=
  (List.range l.length).map (fun i => (l.take (i + 1), l.drop (i + 1)))

/-- Greedy `(\d+)`: (capture, remainder) pairs, longest capture first. -/
def digitRuns (l : List Char) : List (List Char × List Char) :=
  let n := (l.takeWhile isDigitChar).length
  (List.range n).map (fun i => (l.take (n - i), l.drop (n - i)))

/-- A one-character literal of the pattern. -/
def litChar (c : Char) (l : List Char) : List (List Char) :=
  match l with
  | a :: rest => if a = c then [rest] else []
  | [] => []

/-- The anchored alternation `^(error|warning|info|hint)`. -/
def sevAlt (l : List Char) : List (String × List Char) :=
  ["error", "warning", "info", "hint"].filterMap (fun w =>
    if w.data.isPrefixOf l then some (w, l.drop w.length) else none)

/-- Captured groups of the issue-start pattern
`^(error|warning|info|hint)\s+•\s+(.+?)\s+•\s+(.+?):(\d+):(\d+)`. -/
structure IssueStartMatch where
  sevWord : String
  msg : List Char
  filePath : List Char
  lineDigits : List Char
  colDigits : List Char

/-- All matches of the anchored issue-start pattern, in backtracking
priority order: earlier subpattern choices dominate, greedy pieces try
longest first, lazy pieces shortest first. -/
def issueStartCands (l : List Char) : List IssueStartMatch :=
  (sevAlt l).flatMap (fun sw =>
  (wsRuns sw.2).flatMap (fun r2 =>
  (litChar '•' r2).flatMap (fun r3 =>
  (wsRuns r3).flatMap (fun r4 =>
  (lazyPrefixes r4).flatMap (fun ms =>
  (wsRuns ms.2).flatMap (fun r6 =>
  (litChar '•' r6).flatMap (fun r7 =>
  (wsRuns r7).flatMap (fun r8 =>
  (lazyPrefixes r8).flatMap (fun fs =>
  (litChar ':' fs.2).flatMap (fun r10 =>
  (digitRuns r10).flatMap (fun d1 =>
  (litChar ':' d1.2).flatMap (fun r12 =>
  (digitRuns r12).map (fun d2 =>
  ⟨sw.1, ms.1, fs.1, d1.1, d2.1⟩)))))))))))))

/-- `line.match(...)` for the issue-start pattern: the highest-priority
match, or `none`. -/
def matchIssueStart (l : List Char) : Option IssueStartMatch :=
  (issueStartCands l).head?

/-- JavaScript `String.prototype.trim` (ASCII whitespace). -/
def trimChars (l : List Char) : List Char :=
  ((l.dropWhile isWsChar).reverse.dropWhile isWsChar).reverse

/-- `parseInt(digits, 10)` on a nonempty all-digit capture. -/
def digitsToNat (l : List Char) : Nat :=
  l.foldl (fun acc c => 10 * acc + (c.toNat - '0'.toNat)) 0

/-- The issue started by a regex match in `_parseTextOutput`: message is the
trimmed second group, the file path goes through `path.relative` against the
workspace root unconditionally, line/column are `parseInt` of the digit
groups, and the code is the fixed `"analyzer"` marker. -/
def issueOfMatch (root cwd : String) (m : IssueStartMatch) : AnalysisIssue :=
  { severity := mapSeverityStr m.sevWord
    code := "analyzer"
    message := ⟨trimChars m.msg⟩
    file := pathRelative cwd root ⟨m.filePath⟩
    line := (digitsToNat m.lineDigits : Int)
    column := (digitsToNat m.colDigits : Int) }

/-- One loop iteration of `_parseTextOutput`: a matching line finalizes any
accumulated issue and starts a new one; a non-blank non-matching line while
accumulating appends its trimmed text to the message after a space; blank
lines change nothing. -/
def textStep (root cwd : String) (st : List AnalysisIssue × Option AnalysisIssue)
    (line : List Char) : List AnalysisIssue × Option AnalysisIssue :=
  match matchIssueStart line with
  | some m =>
    let started := issueOfMatch root cwd m
    match st.2 with
    | some cur => (st.1 ++ [cur], some started)
    | none => (st.1, some started)
  | none =>
    match st.2 with
    | some cur =>
      if trimChars line ≠ [] then
        (st.1, some { cur with message := cur.message ++ " " ++ (⟨trimChars line⟩ : String) })
      else st
    | none => st

/-- The parsing loop of `_parseTextOutput` over `stdout.split('\n')`,
emitting the still-accumulated issue at end of input. -/
def parseTextLines (stdout : String) (root cwd : String) : List AnalysisIssue :=
  match ((splitOnChar '\n' stdout.data).foldl (textStep root cwd) ([], none)).2 with
  | some cur => ((splitOnChar '\n' stdout.data).foldl (textStep root cwd) ([], none)).1 ++ [cur]
  | none => ((splitOnChar '\n' stdout.data).foldl (textStep root cwd) ([], none)).1

/-- The shapes a `vscode.Diagnostic.code` can take at runtime. -/
inductive VsDiagCode where
  | missing
  | strCode (v : String)
  | numCode (v : Int)
  | objStrCode (v : String)
  | objNumCode (v : Int)

/-- A zero-based position (start of a diagnostic range). -/
structure VsPosition where
  line : Nat
  character : Nat

/-- One host diagnostic: numeric severity level, optional code, message,
range start. -/
structure VsDiagnostic where
  severity : Nat
  code : VsDiagCode
  message : String
  start : VsPosition

/-- A file reference of the diagnostics snapshot. -/
structure VsUri where
  scheme : String
  fsPath : String

/-- `_mapDiagnosticSeverity`: the four numeric host levels onto the issue
severities, anything else onto `info`. -/
def mapDiagnosticSeverity (severity : Nat) : Sev :=
  match severity with
  | 0 => .error
  | 1 => .warning
  | 2 => .info
  | 3 => .hint
  | _ => .info

/-- Code extraction of `_getDiagnosticsFromEditor`: strings as is, numbers
stringified, object codes by their (stringified) `value`, else `"unknown"`. -/
def diagCodeString : VsDiagCode → String
  | .missing => "unknown"
  | .strCode v => v
  | .numCode v => toString v
  | .objStrCode v => v
  | .objNumCode v => toString v

/-- `_getDiagnosticsFromEditor`: keep entries whose URI scheme is `file` and
whose path ends in `.dart`; relativize against the workspace root when one
exists; convert the 0-based range start to 1-based line/column. -/
def getDiagnosticsFromEditor (snapshot : List (VsUri × List VsDiagnostic))
    (workspaceRoot cwd : String) : List AnalysisIssue :=
  snapshot.flatMap (fun entry =>
    if entry.1.scheme ≠ "file" ∨ ¬ strEndsWith entry.1.fsPath ".dart" then []
    else
      entry.2.map (fun d =>
        { severity := mapDiagnosticSeverity d.severity
          code := diagCodeString d.code
          message := d.message
          file :=
            if workspaceRoot ≠ "" then pathRelative cwd workspaceRoot entry.1.fsPath
            else entry.1.fsPath
          line := (d.start.line : Int) + 1
          column := (d.start.character : Int) + 1 }))

/-- `_parseTextOutput` as seen by the orchestrator: the text-mode tool
invocation either yields report text to parse or fails, in which case the
diagnostics snapshot decoder runs. -/
def textFallback (textRes : Except Unit String)
    (snap : List (VsUri × List VsDiagnostic)) (root cwd : String) : List AnalysisIssue :=
  match textRes with
  | .ok txt => parseTextLines txt root cwd
  | .error _ => getDiagnosticsFromEditor snap root cwd

/-- `_runFlutterAnalyze` (and identically `_runDartAnalyze`), with the
external collaborators passed in: `jsonParse` is the JSON.parse builtin,
`jsonRes` the captured stdout/stderr of the JSON-mode invocation (or its
process failure), `textRes` the stdout of the default text-mode invocation
(or its failure), `snap` the host diagnostics snapshot.  A process failure
goes straight to the snapshot decoder; non-empty stderr with empty stdout
goes to the text path without attempting a JSON parse; a JSON parse error or
a decoder exception also goes to the text path. -/
def runFlutterAnalyze (jsonParse : String → Except Unit Json)
    (jsonRes : Except Unit (String × String)) (textRes : Except Unit String)
    (snap : List (VsUri × List VsDiagnostic)) (root cwd : String) : List AnalysisIssue :=
  match jsonRes with
  | .error _ => getDiagnosticsFromEditor snap root cwd
  | .ok (stdout, stderr) =>
    if stderr ≠ "" ∧ stdout = "" then textFallback textRes snap root cwd
    else
      match jsonParse stdout with
      | .error _ => textFallback textRes snap root cwd
      | .ok j =>
        match parseJsonOutput j root cwd with
        | .ok issues => issues
        | .error _ => textFallback textRes snap root cwd

/-- Session state of a panel: the `_isAnalyzing` flag, the issue collection,
and a ghost counter of in-flight analysis runs (not stored by the source;
it only instruments the model so concurrency can be stated). -/
structure Session where
  isAnalyzing : Bool
  running : Nat
  analysisResults : List AnalysisIssue

/-- Events of the single-threaded event loop: a `refresh` invocation (its
synchronous prefix runs atomically: the guard check, then setting the flag
and launching the run), and the completion of an in-flight run (the `await`
resumes, stores results on success, and the `finally` clears the flag). -/
inductive SessionEvent where
  | refreshCall
  | runComplete (results : Option (List AnalysisIssue))

/-- The state transition of one event.  A `refresh` while `_isAnalyzing`
returns immediately, changing nothing and launching nothing. -/
def sessionStep (s : Session) : SessionEvent → Session
  | .refreshCall =>
    if s.isAnalyzing then s
    else { s with isAnalyzing := true, running := s.running + 1 }
  | .runComplete res =>
    if s.running = 0 then s
    else { isAnalyzing := false, running := s.running - 1,
           analysisResults := res.getD s.analysisResults }

/-- States reachable from a fresh panel. -/
inductive SessionReachable : Session → Prop where
  | init : SessionReachable ⟨false, 0, []⟩
  | step {s : Session} (e : SessionEvent) :
      SessionReachable s → SessionReachable (sessionStep s e)

/-- One step of the `issuesByFile` map construction in `_getHtmlForWebview`:
a JS `Map` keeps keys in insertion order and the issue is appended to its
key's entry. -/
def insertIssue : List (String × List AnalysisIssue) → AnalysisIssue →
    List (String × List AnalysisIssue)
  | [], i => [(i.file, [i])]
  | (f, is) :: rest, i =>
    if f = i.file then (f, is ++ [i]) :: rest
    else (f, is) :: insertIssue rest i

/-- The `issuesByFile` map, as its insertion-ordered entry list. -/
def issuesByFile (issues : List AnalysisIssue) : List (String × List AnalysisIssue) :=
  issues.foldl insertIssue []

/-- `a.localeCompare(b)` modeled as code-point lexicographic comparison
(the default-locale order on the ASCII paths the panel handles). -/
def localeCompare (a b : String) : Int :=
  if a.data < b.data then -1 else if b.data < a.data then 1 else 0

/-- The ordering relation realized by the stable sort with comparator
`(a, b) => a.line - b.line`. -/
def lineLE (a b : AnalysisIssue) : Prop :=
  a.line - b.line ≤ 0

instance : DecidableRel lineLE :=
  fun a b => inferInstanceAs (Decidable (a.line - b.line ≤ 0))

/-- The ordering relation realized by the stable sort with comparator
`(a, b) => a.file.localeCompare(b.file)`. -/
def groupLE (a b : String × List AnalysisIssue) : Prop :=
  localeCompare a.1 b.1 ≤ 0

instance : DecidableRel groupLE :=
  fun a b => inferInstanceAs (Decidable (localeCompare a.1 b.1 ≤ 0))

/-- `fileGroups` of `_getHtmlForWebview`: group by file in insertion order,
sort each group ascending by line, then sort the groups by file path. -/
def fileGroups (issues : List AnalysisIssue) : List (String × List AnalysisIssue) :=
  List.insertionSort groupLE
    ((issuesByFile issues).map (fun g => (g.1, List.insertionSort lineLE g.2)))

/-- The `errors` summary filter. -/
def errorsOf (issues : List AnalysisIssue) : List AnalysisIssue :=
  issues.filter (fun i => decide (i.severity = Sev.error))

/-- The `warnings` summary filter. -/
def warningsOf (issues : List AnalysisIssue) : List AnalysisIssue :=
  issues.filter (fun i => decide (i.severity = Sev.warning))

/-- The `infos` summary filter. -/
def infosOf (issues : List AnalysisIssue) : List AnalysisIssue :=
  issues.filter (fun i => decide (i.severity = Sev.info))

/-- The `hints` summary filter. -/
def hintsOf (issues : List AnalysisIssue) : List AnalysisIssue :=
  issues.filter (fun i => decide (i.severity = Sev.hint))

/-- The single-issue JSON payload of the spec's decoding example. -/
def examplePayload : Json :=
  Json.obj [("severity", Json.str "error"), ("code", Json.str "E1"),
    ("message", Json.str "m"),
    ("location", Json.obj [("file", Json.str "/root/a.dart"),
      ("startLine", Json.num 3), ("startColumn", Json.num 5)])]

/-- The unrecognized-shape object payload of the spec's example. -/
def unrelatedPayload : Json :=
  Json.obj [("unrelatedField", Json.num 1)]

/-- A single-issue payload carrying a negative top-level line number. -/
def negativeLinePayload : Json :=
  Json.obj [("severity", Json.str "error"), ("code", Json.str "c"),
    ("line", Json.num (-5))]

/-- The three-line text report of the spec's example. -/
def exampleReport : String :=
  "error • Unused import • lib/a.dart:10:1\n  this import is unused\nwarning • Missing return • lib/b.dart:20:3"

/-- First issue the example report decodes to (root-relative file). -/
def exampleIssue1 : AnalysisIssue :=
  ⟨Sev.error, "analyzer", "Unused import this import is unused", "lib/a.dart", 10, 1⟩

/-- Second issue the example report decodes to (root-relative file). -/
def exampleIssue2 : AnalysisIssue :=
  ⟨Sev.warning, "analyzer", "Missing return", "lib/b.dart", 20, 3⟩

/-- Issue in b.dart at line 5 of the grouping example. -/
def exB5 : AnalysisIssue := ⟨Sev.error, "c", "m", "b.dart", 5, 1⟩

/-- Issue in a.dart at line 1 of the grouping example. -/
def exA1 : AnalysisIssue := ⟨Sev.info, "c", "m", "a.dart", 1, 1⟩

/-- Issue in a.dart at line 3 of the grouping example. -/
def exA3 : AnalysisIssue := ⟨Sev.warning, "c", "m", "a.dart", 3, 1⟩

/-- A one-entry diagnostics snapshot used to instantiate theorems. -/
def exampleSnapshot : List (VsUri × List VsDiagnostic) :=
  [(⟨"file", "/w/x.dart"⟩, [⟨0, VsDiagCode.missing, "m", ⟨0, 0⟩⟩])]

/-- C6: the severity mapper is a total function on strings into the closed
four-value taxonomy; the lower-cased input is matched against the keyword
pairs error/fatal, warning/warn, info/information, and every other string
degrades to hint without an error. -/
theorem C6_thm :
    (∀ s : String, mapSeverityStr s = Sev.error ∨ mapSeverityStr s = Sev.warning ∨
      mapSeverityStr s = Sev.info ∨ mapSeverityStr s = Sev.hint)
    ∧ (∀ s : String, strToLower s = "error" ∨ strToLower s = "fatal" →
        mapSeverityStr s = Sev.error)
    ∧ (∀ s : String, strToLower s = "warning" ∨ strToLower s = "warn" →
        mapSeverityStr s = Sev.warning)
    ∧ (∀ s : String, strToLower s = "info" ∨ strToLower s = "information" →
        mapSeverityStr s = Sev.info)
    ∧ (∀ s : String, strToLower s ≠ "error" → strToLower s ≠ "fatal" →
        strToLower s ≠ "warning" → strToLower s ≠ "warn" →
        strToLower s ≠ "info" → strToLower s ≠ "information" →
        mapSeverityStr s = Sev.hint)
    ∧ mapSeverityStr "ERROR" = Sev.error ∧ mapSeverityStr "Fatal" = Sev.error
    ∧ mapSeverityStr "warn" = Sev.warning ∧ mapSeverityStr "xyz" = Sev.hint := by
  refine ⟨?_, ?_, ?_, ?_, ?_, by decide, by decide, by decide, by decide⟩
  · intro s
    unfold mapSeverityStr
    split
    · exact Or.inl rfl
    split
    · exact Or.inr (Or.inl rfl)
    split
    · exact Or.inr (Or.inr (Or.inl rfl))
    · exact Or.inr (Or.inr (Or.inr rfl))
  · intro s h
    unfold mapSeverityStr
    rcases h with h | h <;> rw [h] <;> decide
  · intro s h
    unfold mapSeverityStr
    rcases h with h | h <;> rw [h] <;> decide
  · intro s h
    unfold mapSeverityStr
    rcases h with h | h <;> rw [h] <;> decide
  · intro s h1 h2 h3 h4 h5 h6
    unfold mapSeverityStr
    simp [h1, h2, h3, h4, h5, h6]

/-- C6 witness: the theorem applied at concrete inputs, with every
hypothesis discharged there. -/
theorem C6_wit :
    mapSeverityStr "FATAL" = Sev.error ∧ mapSeverityStr "Warn" = Sev.warning
    ∧ mapSeverityStr "Information" = Sev.info ∧ mapSeverityStr "zzz" = Sev.hint :=
  ⟨C6_thm.2.1 "FATAL" (Or.inr (by decide)),
   C6_thm.2.2.1 "Warn" (Or.inr (by decide)),
   C6_thm.2.2.2.1 "Information" (Or.inr (by decide)),
   C6_thm.2.2.2.2.1 "zzz" (by decide) (by decide) (by decide) (by decide)
     (by decide) (by decide)⟩

/-- C8: decoding the spec's single-issue payload against root `/root`
yields exactly one issue with severity error, code E1, message m, the
nested location fields, and the file path relativized to `a.dart` — for
every working directory, since both paths are absolute. -/
theorem C8_thm : ∀ cwd : String,
    parseJsonOutput examplePayload "/root" cwd =
      Except.ok [⟨Sev.error, "E1", "m", "a.dart", 3, 5⟩] :=
  fun _ => rfl

/-- C1 counterexample: the payload `null` parses as JSON, matches none of
the three recognized shapes, and the decoder throws on it (property access
on `null`) instead of returning the empty list. -/
theorem C1_cex : parseJsonOutput Json.null "/root" "/" = Except.error () := rfl

/-- C1 as amended: for every successfully parsed payload other than `null`
that matches none of the three recognized shapes (no truthy severity/code
pair, not an array, no truthy diagnostics field), the decoder returns the
empty list without raising; in particular `[]` and the unrelated-field
object yield the empty list for every root. -/
theorem C1_thm :
    (∀ (j : Json) (root cwd : String), j.isNull = false →
      (truthy (jsGetV j "severity") = false ∨ truthy (jsGetV j "code") = false) →
      isArr j = false →
      truthy (jsGetV j "diagnostics") = false →
      parseJsonOutput j root cwd = .ok [])
    ∧ (∀ root cwd : String, parseJsonOutput (Json.arr []) root cwd = .ok [])
    ∧ (∀ root cwd : String, parseJsonOutput unrelatedPayload root cwd = .ok []) := by
  refine ⟨?_, fun _ _ => rfl, fun _ _ => rfl⟩
  intro j root cwd h0 h1 h2 h3
  unfold parseJsonOutput
  rw [h0]
  simp only [Bool.false_eq_true, if_false]
  have hcond : ¬ (truthy (jsGetV j "severity") = true ∧ truthy (jsGetV j "code") = true) := by
    rcases h1 with h1 | h1 <;> simp [h1]
  rw [if_neg (by simpa using hcond)]
  cases j with
  | null => simp [Json.isNull] at h0
  | arr elems => simp [isArr] at h2
  | bool b => rfl
  | num n => rfl
  | str s => rfl
  | obj fields =>
    cases hd : jsGetV (Json.obj fields) "diagnostics" with
    | none => rfl
    | some d =>
      rw [hd] at h3
      cases d with
      | arr elems => simp [truthy, truthyJ] at h3
      | null => rfl
      | bool b =>
        simp only [truthy, truthyJ] at h3
        subst h3
        rfl
      | num n =>
        simp only [truthy, truthyJ, decide_eq_false_iff_not, Decidable.not_not] at h3
        subst h3
        rfl
      | str s =>
        simp only [truthy, truthyJ, decide_eq_false_iff_not, Decidable.not_not] at h3
        subst h3
        rfl
      | obj fs => simp [truthy, truthyJ] at h3

/-- C1 witness: the theorem applied to a concrete non-null unrecognized
payload. -/
theorem C1_wit : parseJsonOutput (Json.bool true) "" "/" = .ok [] :=
  C1_thm.1 (Json.bool true) "" "/" rfl (Or.inl rfl) rfl rfl

/-- C2 counterexample: a single-issue payload supplying `line: -5` decodes
to an issue whose line is `-5`, which is not `≥ 1`. -/
theorem C2_cex :
    parseJsonOutput negativeLinePayload "" "/" =
      Except.ok [⟨Sev.error, "c", "", "", -5, 1⟩]
    ∧ (⟨Sev.error, "c", "", "", -5, 1⟩ : AnalysisIssue).line < 1 :=
  ⟨rfl, by decide⟩

/-- C3 counterexample: decoding the example report against root `/root`
(working directory `/`) yields file `../lib/a.dart`, not `lib/a.dart`:
`path.relative` resolves its arguments against the working directory, so
the claim fails for roots that do not resolve to it. -/
theorem C3_cex :
    (parseTextLines exampleReport "/root" "/").map (fun i => i.file)
      = ["../lib/a.dart", "../lib/b.dart"]
    ∧ ("../lib/a.dart" : String) ≠ "lib/a.dart" :=
  ⟨rfl, by decide⟩

/-- C7 counterexample: with root `a` and raw path `a/a/b` (working
directory `/`), normalizing once yields `a/b` and normalizing again yields
`b`, so the normalizer is not idempotent for every root. -/
theorem C7_cex :
    normalizePath "/" "a" (normalizePath "/" "a" "a/a/b")
      ≠ normalizePath "/" "a" "a/a/b" := by decide

/-- C4: when the JSON-mode invocation returns empty stdout and non-empty
stderr, the run takes the text-decoder path for every possible JSON parser
(no parse is attempted and the JSON decoder is not invoked): the result is
the text fallback, which parses the text-mode stdout when that invocation
succeeds and decodes the diagnostics snapshot when it fails. -/
theorem C4_thm : ∀ (jsonParse : String → Except Unit Json) (stderr : String)
    (textRes : Except Unit String) (snap : List (VsUri × List VsDiagnostic))
    (root cwd : String), stderr ≠ "" →
    (runFlutterAnalyze jsonParse (.ok ("", stderr)) textRes snap root cwd
      = textFallback textRes snap root cwd)
    ∧ (∀ txt, textRes = .ok txt →
      runFlutterAnalyze jsonParse (.ok ("", stderr)) textRes snap root cwd
        = parseTextLines txt root cwd)
    ∧ (runFlutterAnalyze jsonParse (.ok ("", stderr)) (.error ()) snap root cwd
      = getDiagnosticsFromEditor snap root cwd) := by
  intro p e t snap root cwd he
  have h1 : runFlutterAnalyze p (.ok ("", e)) t snap root cwd
      = textFallback t snap root cwd := by
    unfold runFlutterAnalyze
    simp [he]
  refine ⟨h1, ?_, ?_⟩
  · intro txt ht
    rw [h1, ht]
    rfl
  · unfold runFlutterAnalyze textFallback
    simp [he]

/-- C4 witness: the theorem applied to a concrete failing JSON invocation. -/
theorem C4_wit :
    runFlutterAnalyze (fun _ => .error ()) (.ok ("", "boom")) (.ok "x") [] "" "/"
      = textFallback (.ok "x") [] "" "/" :=
  (C4_thm (fun _ => .error ()) "boom" (.ok "x") [] "" "/" (by decide)).1

/-- C5: a `refresh` while `_isAnalyzing` is set is a no-op (the state —
including the issue collection — is unchanged and no run is launched), and
in every reachable session state at most one analysis run is in flight. -/
theorem C5_thm :
    (∀ s : Session, s.isAnalyzing = true →
      sessionStep s SessionEvent.refreshCall = s)
    ∧ (∀ s : Session, SessionReachable s → s.running ≤ 1) := by
  constructor
  · intro s h
    unfold sessionStep
    simp [h]
  · have key : ∀ s : Session, SessionReachable s →
        s.running ≤ 1 ∧ (s.isAnalyzing = false → s.running = 0) := by
      intro s h
      induction h with
      | init => exact ⟨Nat.zero_le 1, fun _ => rfl⟩
      | step e hs ih =>
        rename_i s
        cases e with
        | refreshCall =>
          by_cases hb : s.isAnalyzing
          · simpa [sessionStep, hb] using ih
          · have h0 : s.running = 0 := ih.2 (by simpa using hb)
            simp [sessionStep, hb, h0]
        | runComplete res =>
          by_cases hr : s.running = 0
          · have hstep : sessionStep s (SessionEvent.runComplete res) = s := by
              simp [sessionStep, hr]
            rw [hstep]
            exact ih
          · have hle : s.running ≤ 1 := ih.1
            simp only [sessionStep, hr, if_false]
            constructor
            · omega
            · intro _
              omega
    intro s h
    exact (key s h).1

/-- C5 witness: the theorem applied to a concrete in-flight state and to
the initial reachable state. -/
theorem C5_wit :
    sessionStep ⟨true, 1, []⟩ SessionEvent.refreshCall = ⟨true, 1, []⟩
    ∧ (⟨false, 0, []⟩ : Session).running ≤ 1 :=
  ⟨C5_thm.1 ⟨true, 1, []⟩ rfl, C5_thm.2 ⟨false, 0, []⟩ SessionReachable.init⟩

/-- Splitting always yields at least one group. -/
theorem splitOnChar_ne_nil (c : Char) (l : List Char) : splitOnChar c l ≠ [] := by
  induction l with
  | nil => simp [splitOnChar]
  | cons a rest ih =>
    by_cases hac : a = c
    · simp [splitOnChar, hac]
    · simp only [splitOnChar, if_neg hac]
      cases hsp : splitOnChar c rest with
      | nil => simp
      | cons g gs => simp

/-- Splitting distributes over an occurrence of the separator. -/
theorem splitOnChar_append (c : Char) (xs ys : List Char) :
    splitOnChar c (xs ++ c :: ys) = splitOnChar c xs ++ splitOnChar c ys := by
  induction xs with
  | nil => simp [splitOnChar]
  | cons a rest ih =>
    by_cases hac : a = c
    · subst hac
      simp [splitOnChar, ih]
    · simp only [List.cons_append, splitOnChar, if_neg hac, List.append_eq]
      rw [ih]
      cases hsp : splitOnChar c rest with
      | nil => exact absurd hsp (splitOnChar_ne_nil c rest)
      | cons g gs => simp

/-- No group produced by splitting contains the separator. -/
theorem splitOnChar_not_mem (c : Char) (l : List Char) :
    ∀ g ∈ splitOnChar c l, c ∉ g := by
  induction l with
  | nil =>
    intro g hg
    simp [splitOnChar] at hg
    simp [hg]
  | cons a rest ih =>
    intro g hg
    by_cases hac : a = c
    · subst hac
      simp only [splitOnChar, if_true, eq_self_iff_true, if_pos, List.mem_cons] at hg
      rcases hg with rfl | hg
      · simp
      · exact ih g hg
    · simp only [splitOnChar, if_neg hac] at hg
      cases hsp : splitOnChar c rest with
      | nil => exact absurd hsp (splitOnChar_ne_nil c rest)
      | cons g0 gs =>
        rw [hsp] at hg
        simp only [List.mem_cons] at hg
        rcases hg with rfl | hg
        · intro hc
          rcases List.mem_cons.mp hc with rfl | hc
          · exact hac rfl
          · exact ih g0 (by rw [hsp]; exact List.mem_cons_self g0 gs) hc
        · exact ih g (by rw [hsp]; exact List.mem_cons_of_mem g0 hg)

/-- Segments of a path are nonempty and slash-free. -/
theorem segsOf_mem (p : String) : ∀ g ∈ segsOf p, g ≠ [] ∧ '/' ∉ g := by
  intro g hg
  unfold segsOf at hg
  rw [List.mem_filter] at hg
  exact ⟨by simpa using hg.2, splitOnChar_not_mem '/' p.data g hg.1⟩

/-- Resolving a concatenation resolves the pieces in sequence. -/
theorem resolveSegs_append (acc xs ys : List (List Char)) :
    resolveSegs acc (xs ++ ys) = resolveSegs (resolveSegs acc xs) ys := by
  induction xs generalizing acc with
  | nil => simp [resolveSegs]
  | cons s rest ih =>
    by_cases h1 : s = ['.']
    · simp [resolveSegs, h1, ih]
    · by_cases h2 : s = ['.', '.']
      · simp [resolveSegs, h1, h2, ih]
      · simp [resolveSegs, h1, h2, ih]

/-- Resolving segments that are neither `.` nor `..` appends them. -/
theorem resolveSegs_plain : ∀ (xs : List (List Char)) (acc : List (List Char)),
    (∀ s ∈ xs, s ≠ ['.'] ∧ s ≠ ['.', '.']) → resolveSegs acc xs = acc ++ xs := by
  intro xs
  induction xs with
  | nil =>
    intro acc _
    simp [resolveSegs]
  | cons s rest ih =>
    intro acc h
    have hs := h s (List.mem_cons_self s rest)
    simp only [resolveSegs, if_neg hs.1, if_neg hs.2]
    rw [ih (acc ++ [s]) (fun t ht => h t (List.mem_cons_of_mem s ht))]
    simp

/-- Dropping the common prefix of a list and an extension of it. -/
theorem dropCommon_append (l xs : List (List Char)) :
    dropCommon l (l ++ xs) = ([], xs) := by
  induction l with
  | nil => cases xs <;> rfl
  | cons a as ih => simp [dropCommon, ih]

/-- Every segment of a resolution comes from the accumulator or the input. -/
theorem resolveSegs_mem : ∀ (xs acc : List (List Char)) (s : List Char),
    s ∈ resolveSegs acc xs → s ∈ acc ∨ s ∈ xs := by
  intro xs
  induction xs with
  | nil =>
    intro acc s h
    left
    simpa [resolveSegs] using h
  | cons t rest ih =>
    intro acc s h
    by_cases h1 : t = ['.']
    · rcases ih acc s (by simpa [resolveSegs, h1] using h) with h' | h'
      · exact Or.inl h'
      · exact Or.inr (List.mem_cons_of_mem t h')
    · by_cases h2 : t = ['.', '.']
      · rcases ih acc.dropLast s (by simpa [resolveSegs, h1, h2] using h) with h' | h'
        · exact Or.inl (List.dropLast_subset acc h')
        · exact Or.inr (List.mem_cons_of_mem t h')
      · rcases ih (acc ++ [t]) s (by simpa [resolveSegs, h1, h2] using h) with h' | h'
        · rcases List.mem_append.mp h' with h'' | h''
          · exact Or.inl h''
          · simp only [List.mem_singleton] at h''
            exact Or.inr (h'' ▸ List.mem_cons_self t rest)
        · exact Or.inr (List.mem_cons_of_mem t h')

/-- A string assembled from nonempty slash-free segments (or dot-dot
climbs) is not absolute. -/
theorem joinSegs_not_abs (L : List (List Char))
    (h : ∀ g ∈ L, (g ≠ [] ∧ '/' ∉ g) ∨ g = ['.', '.']) :
    isAbs ⟨joinSegs L⟩ = false := by
  cases L with
  | nil => rfl
  | cons g rest =>
    obtain ⟨c, cs, rfl, hc⟩ : ∃ c cs, g = c :: cs ∧ c ≠ '/' := by
      rcases h g (List.mem_cons_self g rest) with ⟨hne, hsl⟩ | rfl
      · cases g with
        | nil => exact absurd rfl hne
        | cons c cs => exact ⟨c, cs, rfl, fun hcc => hsl (hcc ▸ List.mem_cons_self c cs)⟩
      · exact ⟨'.', ['.'], rfl, by decide⟩
    cases rest with
    | nil => simp [joinSegs, isAbs, hc]
    | cons r rs => simp [joinSegs, isAbs, hc]

/-- The second component of `dropCommon` is drawn from the second input. -/
theorem dropCommon_snd_subset : ∀ a b : List (List Char), (dropCommon a b).2 ⊆ b := by
  intro a
  induction a with
  | nil => intro b; cases b <;> simp [dropCommon]
  | cons x xs ih =>
    intro b
    cases b with
    | nil => simp [dropCommon]
    | cons y ys =>
      by_cases hxy : x = y
      · simp only [dropCommon, if_pos hxy]
        exact fun s hs => List.mem_cons_of_mem y (ih ys hs)
      · simp [dropCommon, hxy]

/-- `path.relative` never returns an absolute path. -/
theorem pathRelative_not_abs (cwd fr dst : String) :
    isAbs (pathRelative cwd fr dst) = false := by
  unfold pathRelative
  apply joinSegs_not_abs
  intro g hg
  rcases List.mem_append.mp hg with hg | hg
  · right
    rcases List.mem_map.mp hg with ⟨_, _, rfl⟩
    rfl
  · left
    have hmem : g ∈ pathResolve cwd dst := dropCommon_snd_subset _ _ hg
    unfold pathResolve at hmem
    split at hmem
    · rcases resolveSegs_mem _ _ _ hmem with h' | h'
      · simp at h'
      · exact segsOf_mem dst g h'
    · rcases resolveSegs_mem _ _ _ hmem with h' | h'
      · simp at h'
      · rcases List.mem_append.mp h' with h'' | h''
        · exact segsOf_mem cwd g h''
        · exact segsOf_mem dst g h''

/-- A string with an absolute prefix is absolute. -/
theorem strStartsWith_abs (raw pre : String) (h : strStartsWith raw pre = true)
    (ha : isAbs pre = true) : isAbs raw = true := by
  unfold strStartsWith at h
  rw [List.isPrefixOf_iff_prefix] at h
  obtain ⟨t, ht⟩ := h
  unfold isAbs at ha ⊢
  cases hp : pre.data with
  | nil => rw [hp] at ha; simp at ha
  | cons c cs =>
    rw [hp] at ha
    simp only [List.head?_cons, decide_eq_true_eq, Option.some.injEq] at ha
    rw [← ht, hp]
    simp [ha]

/-- C7 as amended: the normalizer relativizes exactly the root-prefixed
paths and passes others through unchanged, and — for every absolute root,
as the workspace root always is — it is idempotent, leaves already-relative
paths unchanged, and maps `root ++ "/a/b.dart"` to `"a/b.dart"`.  (For
relative roots idempotence fails, see the counterexample.) -/
theorem C7_thm : ∀ (cwd root raw : String), isAbs root = true →
    (strStartsWith raw root = true → normalizePath cwd root raw = pathRelative cwd root raw)
    ∧ (strStartsWith raw root = false → normalizePath cwd root raw = raw)
    ∧ (isAbs raw = false → normalizePath cwd root raw = raw)
    ∧ normalizePath cwd root (normalizePath cwd root raw) = normalizePath cwd root raw
    ∧ normalizePath cwd root (root ++ "/a/b.dart") = "a/b.dart" := by
  intro cwd root raw hroot
  have habs_of : ∀ p : String, strStartsWith p root = true → isAbs p = true :=
    fun p hp => strStartsWith_abs p root hp hroot
  refine ⟨?_, ?_, ?_, ?_, ?_⟩
  · intro h
    unfold normalizePath
    rw [h]
    simp
  · intro h
    unfold normalizePath
    rw [h]
    simp
  · intro h
    have hsw : strStartsWith raw root = false := by
      cases hsw : strStartsWith raw root with
      | false => rfl
      | true => rw [habs_of raw hsw] at h; exact absurd h (by simp)
    unfold normalizePath
    rw [hsw]
    simp
  · cases hsw : strStartsWith raw root with
    | false =>
      have h1 : normalizePath cwd root raw = raw := by
        unfold normalizePath
        rw [hsw]
        simp
      rw [h1]
      exact h1
    | true =>
      have h1 : normalizePath cwd root raw = pathRelative cwd root raw := by
        unfold normalizePath
        rw [hsw]
        simp
      rw [h1]
      have h2 : strStartsWith (pathRelative cwd root raw) root = false := by
        cases hsw2 : strStartsWith (pathRelative cwd root raw) root with
        | false => rfl
        | true =>
          have hcontra := habs_of _ hsw2
          rw [pathRelative_not_abs] at hcontra
          exact absurd hcontra (by simp)
      unfold normalizePath
      rw [h2]
      simp
  · have hsw : strStartsWith (root ++ "/a/b.dart") root = true := by
      unfold strStartsWith
      rw [List.isPrefixOf_iff_prefix, String.data_append]
      exact List.prefix_append root.data _
    unfold normalizePath
    rw [hsw]
    simp only [if_pos, if_true]
    have habs2 : isAbs (root ++ "/a/b.dart") = true := by
      unfold isAbs at hroot ⊢
      rw [String.data_append]
      cases hp : root.data with
      | nil => rw [hp] at hroot; simp at hroot
      | cons c cs =>
        rw [hp] at hroot
        simp only [List.head?_cons, decide_eq_true_eq, Option.some.injEq] at hroot
        simp [hroot]
    have hsegs : segsOf (root ++ "/a/b.dart") =
        segsOf root ++ [['a'], ['b', '.', 'd', 'a', 'r', 't']] := by
      unfold segsOf
      rw [String.data_append,
        show ("/a/b.dart" : String).data = '/' :: ("a/b.dart" : String).data by decide,
        splitOnChar_append, List.filter_append]
      rfl
    have hresolved : pathResolve cwd (root ++ "/a/b.dart") =
        pathResolve cwd root ++ [['a'], ['b', '.', 'd', 'a', 'r', 't']] := by
      unfold pathResolve
      rw [habs2, hroot]
      simp only [if_true]
      rw [hsegs, resolveSegs_append,
        resolveSegs_plain [['a'], ['b', '.', 'd', 'a', 'r', 't']] _ (by decide)]
    unfold pathRelative
    rw [hresolved, dropCommon_append]
    simp [joinSegs]

/-- C7 witness: the theorem applied to the concrete absolute root `/w`,
with every hypothesis discharged there. -/
theorem C7_wit :
    normalizePath "/" "/w" "x.dart" = "x.dart"
    ∧ normalizePath "/" "/w" (normalizePath "/" "/w" "/w/z/q.dart")
        = normalizePath "/" "/w" "/w/z/q.dart"
    ∧ normalizePath "/" "/w" ("/w" ++ "/a/b.dart") = "a/b.dart" :=
  ⟨(C7_thm "/" "/w" "x.dart" (by decide)).2.2.1 (by decide),
   (C7_thm "/" "/w" "/w/z/q.dart" (by decide)).2.2.2.1,
   (C7_thm "/" "/w" "" (by decide)).2.2.2.2⟩

/-- Relativizing a plain relative path against a root equal to the working
directory returns the path itself. -/
theorem pathRelative_cwd_rel (cwd : String) (hc : isAbs cwd = true) (p : String)
    (hp : isAbs p = false)
    (hseg : ∀ s ∈ segsOf p, s ≠ ['.'] ∧ s ≠ ['.', '.']) :
    pathRelative cwd cwd p = ⟨joinSegs (segsOf p)⟩ := by
  unfold pathRelative pathResolve
  rw [hc, hp]
  simp only [eq_self_iff_true, if_true, Bool.false_eq_true, if_false]
  rw [resolveSegs_append, resolveSegs_plain (segsOf p) _ hseg, dropCommon_append]
  simp

/-- C3 as amended: decoding the example report yields exactly the two
issues — the indented continuation line appended to the first message with
a single space, code `analyzer` for both, lines 10:1 and 20:3 — with files
`lib/a.dart` and `lib/b.dart`, for every root that resolves to the process
working directory (here root = cwd); for other roots `path.relative`
produces a `..`-path instead (see the counterexample). -/
theorem C3_thm : ∀ cwd : String, isAbs cwd = true →
    parseTextLines exampleReport cwd cwd = [exampleIssue1, exampleIssue2] := by
  intro cwd hc
  have e1 : pathRelative cwd cwd "lib/a.dart" = "lib/a.dart" := by
    rw [pathRelative_cwd_rel cwd hc "lib/a.dart" (by decide) (by decide)]
    decide
  have e2 : pathRelative cwd cwd "lib/b.dart" = "lib/b.dart" := by
    rw [pathRelative_cwd_rel cwd hc "lib/b.dart" (by decide) (by decide)]
    decide
  have hred : parseTextLines exampleReport cwd cwd =
      [{ exampleIssue1 with file := pathRelative cwd cwd "lib/a.dart" },
       { exampleIssue2 with file := pathRelative cwd cwd "lib/b.dart" }] := rfl
  rw [hred, e1, e2]
  rfl

/-- C3 witness: the theorem applied at the concrete working directory
`/w`. -/
theorem C3_wit : parseTextLines exampleReport "/w" "/w" = [exampleIssue1, exampleIssue2] :=
  C3_thm "/w" (by decide)

/-- A successful `_parseIssue` stores exactly the `location?.startLine ||
line || 1` and `location?.startColumn || column || 1` chain values. -/
theorem parseIssue_ok_fields (j : Json) (root cwd : String) (i : AnalysisIssue)
    (h : parseIssue j root cwd = .ok i) :
    expectNum (jsOr (jsOr (optChainField (jsGetV j "location") "startLine") (jsGetV j "line"))
      (some (Json.num 1))) = .ok i.line
    ∧ expectNum (jsOr (jsOr (optChainField (jsGetV j "location") "startColumn") (jsGetV j "column"))
      (some (Json.num 1))) = .ok i.column := by
  simp only [parseIssue] at h
  split at h
  · exact Except.noConfusion h
  · split at h
    · exact Except.noConfusion h
    · split at h
      · exact Except.noConfusion h
      · split at h
        · exact Except.noConfusion h
        · split at h
          · exact Except.noConfusion h
          · split at h
            · exact Except.noConfusion h
            · split at h
              · exact Except.noConfusion h
              · injection h with h
                subst h
                constructor <;> assumption

/-- The `x || y || 1` numeric extraction yields at least 1 whenever every
explicitly supplied numeric value is nonnegative (zero falls back to the
default 1). -/
theorem expectNum_jsOr_one (L : Option Json) (n : Int)
    (h : expectNum (jsOr L (some (Json.num 1))) = .ok n)
    (hL : ∀ m : Int, L = some (Json.num m) → 0 ≤ m) : 1 ≤ n := by
  cases L with
  | none =>
    simp [jsOr, truthy, expectNum] at h
    omega
  | some v =>
    cases v with
    | null =>
      simp [jsOr, truthy, truthyJ, expectNum] at h
      omega
    | bool b =>
      cases b with
      | false =>
        simp [jsOr, truthy, truthyJ, expectNum] at h
        omega
      | true => simp [jsOr, truthy, truthyJ, expectNum] at h
    | num m =>
      by_cases hm : m = 0
      · subst hm
        simp [jsOr, truthy, truthyJ, expectNum] at h
        omega
      · have htr : truthy (some (Json.num m)) = true := by simp [truthy, truthyJ, hm]
        simp [jsOr, htr, expectNum] at h
        have hge := hL m rfl
        omega
    | str s =>
      by_cases hs : s = ""
      · subst hs
        simp [jsOr, truthy, truthyJ, expectNum] at h
        omega
      · have htr : truthy (some (Json.str s)) = true := by simp [truthy, truthyJ, hs]
        simp [jsOr, htr, expectNum] at h
    | arr xs => simp [jsOr, truthy, truthyJ, expectNum] at h
    | obj fs => simp [jsOr, truthy, truthyJ, expectNum] at h

/-- Line/column bounds are preserved by the text-report parsing loop. -/
theorem textStep_bound (root cwd : String) :
    ∀ (lines : List (List Char)) (st : List AnalysisIssue × Option AnalysisIssue),
    (∀ lc ∈ lines, ∀ m : IssueStartMatch, matchIssueStart lc = some m →
      1 ≤ digitsToNat m.lineDigits ∧ 1 ≤ digitsToNat m.colDigits) →
    (∀ i ∈ st.1, 1 ≤ i.line ∧ 1 ≤ i.column) →
    (∀ i, st.2 = some i → 1 ≤ i.line ∧ 1 ≤ i.column) →
    (∀ i ∈ (lines.foldl (textStep root cwd) st).1, 1 ≤ i.line ∧ 1 ≤ i.column)
    ∧ (∀ i, (lines.foldl (textStep root cwd) st).2 = some i →
        1 ≤ i.line ∧ 1 ≤ i.column) := by
  intro lines
  induction lines with
  | nil =>
    intro st hm h1 h2
    exact ⟨h1, h2⟩
  | cons lc rest ih =>
    intro st hm h1 h2
    rw [List.foldl_cons]
    have hnew : (∀ i ∈ (textStep root cwd st lc).1, 1 ≤ i.line ∧ 1 ≤ i.column)
        ∧ (∀ i, (textStep root cwd st lc).2 = some i → 1 ≤ i.line ∧ 1 ≤ i.column) := by
      unfold textStep
      cases hmatch : matchIssueStart lc with
      | some m =>
        have hb := hm lc (List.mem_cons_self lc rest) m hmatch
        cases hcur : st.2 with
        | some cur =>
          constructor
          · intro i hi
            rcases List.mem_append.mp hi with hi | hi
            · exact h1 i hi
            · simp only [List.mem_singleton] at hi
              subst hi
              exact h2 i hcur
          · intro i hi
            simp only [Option.some.injEq] at hi
            subst hi
            refine ⟨?_, ?_⟩
            · show (1 : Int) ≤ (digitsToNat m.lineDigits : Int)
              exact_mod_cast hb.1
            · show (1 : Int) ≤ (digitsToNat m.colDigits : Int)
              exact_mod_cast hb.2
        | none =>
          constructor
          · intro i hi
            exact h1 i hi
          · intro i hi
            simp only [Option.some.injEq] at hi
            subst hi
            refine ⟨?_, ?_⟩
            · show (1 : Int) ≤ (digitsToNat m.lineDigits : Int)
              exact_mod_cast hb.1
            · show (1 : Int) ≤ (digitsToNat m.colDigits : Int)
              exact_mod_cast hb.2
      | none =>
        cases hcur : st.2 with
        | some cur =>
          by_cases ht : trimChars lc = []
          · simp only [ht, ne_eq, not_true_eq_false, if_false]
            exact ⟨h1, h2⟩
          · simp only [ne_eq, ht, not_false_eq_true, if_true]
            constructor
            · intro i hi
              exact h1 i hi
            · intro i hi
              simp only [Option.some.injEq] at hi
              subst hi
              exact h2 cur hcur
        | none => exact ⟨h1, h2⟩
    exact ih (textStep root cwd st lc)
      (fun lc2 h2' m hm2 => hm lc2 (List.mem_cons_of_mem lc h2') m hm2) hnew.1 hnew.2

/-- C2 as amended: line and column default to 1 when the source supplies no
location and are ≥ 1 whenever the supplied values are themselves positive
(JSON: nonnegative, since 0 falls back to the default; text: nonzero digit
groups); the diagnostics decoder is unconditionally ≥ 1.  The JSON decoder
passes negative supplied values through and the text decoder passes a
literal 0 through, so the unconditional claim fails (see the
counterexample). -/
theorem C2_thm :
    (∀ (j : Json) (root cwd : String) (i : AnalysisIssue),
      parseIssue j root cwd = .ok i →
      (∀ m : Int, jsOr (optChainField (jsGetV j "location") "startLine") (jsGetV j "line")
          = some (Json.num m) → 0 ≤ m) →
      (∀ m : Int, jsOr (optChainField (jsGetV j "location") "startColumn") (jsGetV j "column")
          = some (Json.num m) → 0 ≤ m) →
      1 ≤ i.line ∧ 1 ≤ i.column)
    ∧ (∀ (stdout root cwd : String),
      (∀ lc ∈ splitOnChar '\n' stdout.data, ∀ m : IssueStartMatch,
        matchIssueStart lc = some m →
        1 ≤ digitsToNat m.lineDigits ∧ 1 ≤ digitsToNat m.colDigits) →
      ∀ i ∈ parseTextLines stdout root cwd, 1 ≤ i.line ∧ 1 ≤ i.column)
    ∧ (∀ (snapshot : List (VsUri × List VsDiagnostic)) (root cwd : String),
      ∀ i ∈ getDiagnosticsFromEditor snapshot root cwd, 1 ≤ i.line ∧ 1 ≤ i.column) := by
  refine ⟨?_, ?_, ?_⟩
  · intro j root cwd i h hl hc
    obtain ⟨h1, h2⟩ := parseIssue_ok_fields j root cwd i h
    exact ⟨expectNum_jsOr_one _ _ h1 hl, expectNum_jsOr_one _ _ h2 hc⟩
  · intro stdout root cwd hm i hi
    unfold parseTextLines at hi
    have hb := textStep_bound root cwd (splitOnChar '\n' stdout.data) ([], none) hm
      (by intro i hi; simp at hi) (by intro i hi; simp at hi)
    cases hres : ((splitOnChar '\n' stdout.data).foldl (textStep root cwd) ([], none)).2 with
    | some cur =>
      rw [hres] at hi
      simp only [List.mem_append, List.mem_singleton] at hi
      rcases hi with hi | rfl
      · exact hb.1 i hi
      · exact hb.2 i hres
    | none =>
      rw [hres] at hi
      exact hb.1 i hi
  · intro snapshot root cwd i hi
    unfold getDiagnosticsFromEditor at hi
    rw [List.mem_flatMap] at hi
    obtain ⟨entry, hentry, hin⟩ := hi
    split at hin
    · simp at hin
    · rw [List.mem_map] at hin
      obtain ⟨d, hd, rfl⟩ := hin
      refine ⟨?_, ?_⟩
      · show (1 : Int) ≤ (d.start.line : Int) + 1
        omega
      · show (1 : Int) ≤ (d.start.character : Int) + 1
        omega

/-- C2 witness: the theorem applied at concrete inputs for each of the
three decoders, with every hypothesis discharged there. -/
theorem C2_wit :
    (1 ≤ (⟨Sev.error, "E1", "m", "a.dart", 3, 5⟩ : AnalysisIssue).line
      ∧ 1 ≤ (⟨Sev.error, "E1", "m", "a.dart", 3, 5⟩ : AnalysisIssue).column)
    ∧ (1 ≤ (⟨Sev.error, "analyzer", "m", "f", 2, 3⟩ : AnalysisIssue).line
      ∧ 1 ≤ (⟨Sev.error, "analyzer", "m", "f", 2, 3⟩ : AnalysisIssue).column)
    ∧ (1 ≤ (⟨Sev.error, "unknown", "m", "/w/x.dart", 1, 1⟩ : AnalysisIssue).line
      ∧ 1 ≤ (⟨Sev.error, "unknown", "m", "/w/x.dart", 1, 1⟩ : AnalysisIssue).column) := by
  refine ⟨?_, ?_, ?_⟩
  · refine C2_thm.1 examplePayload "/root" "/" _ rfl ?_ ?_
    · intro m hm
      have h3 : (some (Json.num 3) : Option Json) = some (Json.num m) := hm
      injection h3 with h4
      injection h4 with h5
      omega
    · intro m hm
      have h3 : (some (Json.num 5) : Option Json) = some (Json.num m) := hm
      injection h3 with h4
      injection h4 with h5
      omega
  · refine C2_thm.2.1 "error • m • f:2:3" "" "/" ?_
      ⟨Sev.error, "analyzer", "m", "f", 2, 3⟩ (by decide)
    intro lc hlc m hm
    have hlc2 : lc = ("error • m • f:2:3" : String).data := by
      have h1 : splitOnChar '\n' ("error • m • f:2:3" : String).data
          = [("error • m • f:2:3" : String).data] := by decide
      rw [h1] at hlc
      simpa using hlc
    subst hlc2
    have hM : (some (⟨"error", ['m'], ['f'], ['2'], ['3']⟩ : IssueStartMatch)
        : Option IssueStartMatch) = some m := hm
    injection hM with h4
    rw [← h4]
    decide
  · exact C2_thm.2.2 exampleSnapshot "" "/"
      ⟨Sev.error, "unknown", "m", "/w/x.dart", 1, 1⟩ (by decide)

/-- `groupLE` is code-point comparison of the group keys. -/
theorem groupLE_iff (a b : String × List AnalysisIssue) :
    groupLE a b ↔ a.1.data ≤ b.1.data := by
  unfold groupLE localeCompare
  rcases lt_trichotomy a.1.data b.1.data with h | h | h
  · rw [if_pos h]
    simp [le_of_lt h]
  · rw [if_neg (by rw [h]; exact lt_irrefl _), if_neg (by rw [h]; exact lt_irrefl _)]
    simp [le_of_eq h]
  · rw [if_neg (not_lt.mpr (le_of_lt h)), if_pos h]
    constructor
    · intro hc
      exact absurd hc (by norm_num)
    · intro hc
      exact absurd hc (not_le.mpr h)

/-- `lineLE` is comparison of the line numbers. -/
theorem lineLE_iff (a b : AnalysisIssue) : lineLE a b ↔ a.line ≤ b.line := by
  unfold lineLE
  omega

instance : IsTotal (String × List AnalysisIssue) groupLE :=
  ⟨fun a b => by
    rw [groupLE_iff, groupLE_iff]
    exact le_total _ _⟩

instance : IsTrans (String × List AnalysisIssue) groupLE :=
  ⟨fun a b c hab hbc => by
    rw [groupLE_iff] at hab hbc ⊢
    exact le_trans hab hbc⟩

instance : IsTotal AnalysisIssue lineLE :=
  ⟨fun a b => by
    rw [lineLE_iff, lineLE_iff]
    exact le_total _ _⟩

instance : IsTrans AnalysisIssue lineLE :=
  ⟨fun a b c hab hbc => by
    rw [lineLE_iff] at hab hbc ⊢
    exact le_trans hab hbc⟩

/-- Inserting an issue appends it to the flattened groups, up to order. -/
theorem insertIssue_flat (gs : List (String × List AnalysisIssue)) (i : AnalysisIssue) :
    List.Perm ((insertIssue gs i).flatMap (fun g => g.2))
      ((gs.flatMap (fun g => g.2)) ++ [i]) := by
  induction gs with
  | nil => simp [insertIssue]
  | cons g rest ih =>
    obtain ⟨f, is⟩ := g
    by_cases hf : f = i.file
    · simp only [insertIssue, if_pos hf, List.flatMap_cons]
      rw [List.append_assoc, List.append_assoc]
      exact List.Perm.append_left is List.perm_append_comm
    · simp only [insertIssue, if_neg hf, List.flatMap_cons]
      rw [List.append_assoc]
      exact List.Perm.append_left is ih

/-- Keys after insertion: unchanged when the file already has a group,
appended at the end otherwise. -/
theorem insertIssue_keys (gs : List (String × List AnalysisIssue)) (i : AnalysisIssue) :
    (insertIssue gs i).map (fun g => g.1) =
      if i.file ∈ gs.map (fun g => g.1) then gs.map (fun g => g.1)
      else gs.map (fun g => g.1) ++ [i.file] := by
  induction gs with
  | nil => simp [insertIssue]
  | cons g rest ih =>
    obtain ⟨f, is⟩ := g
    by_cases hf : f = i.file
    · subst hf
      simp [insertIssue, List.map_cons]
    · have hf2 : ¬ (i.file = f) := fun he => hf he.symm
      simp only [insertIssue, if_neg hf, List.map_cons, ih]
      by_cases hmem : i.file ∈ rest.map (fun g => g.1)
      · simp [hmem, hf2]
      · simp [hmem, hf2]

/-- Every group stays keyed by its members' `file` field. -/
theorem insertIssue_keyed : ∀ (gs : List (String × List AnalysisIssue)) (i : AnalysisIssue),
    (∀ g ∈ gs, ∀ j ∈ g.2, j.file = g.1) →
    ∀ g ∈ insertIssue gs i, ∀ j ∈ g.2, j.file = g.1 := by
  intro gs
  induction gs with
  | nil =>
    intro i h g hg j hj
    simp only [insertIssue, List.mem_singleton] at hg
    subst hg
    simp only [List.mem_singleton] at hj
    subst hj
    rfl
  | cons g0 rest ih =>
    obtain ⟨f, is⟩ := g0
    intro i h g hg j hj
    by_cases hf : f = i.file
    · simp only [insertIssue, if_pos hf] at hg
      rcases List.mem_cons.mp hg with rfl | hg
      · rcases List.mem_append.mp hj with hj | hj
        · exact h (f, is) (List.mem_cons_self _ _) j hj
        · simp only [List.mem_singleton] at hj
          subst hj
          exact hf.symm
      · exact h g (List.mem_cons_of_mem _ hg) j hj
    · simp only [insertIssue, if_neg hf] at hg
      rcases List.mem_cons.mp hg with rfl | hg
      · exact h (f, is) (List.mem_cons_self _ _) j hj
      · exact ih i (fun g' hg' => h g' (List.mem_cons_of_mem _ hg')) g hg j hj

/-- Flattening the grouped map recovers the issues, up to order. -/
theorem issuesByFile_flat : ∀ (issues : List AnalysisIssue)
    (gs : List (String × List AnalysisIssue)),
    List.Perm ((issues.foldl insertIssue gs).flatMap (fun g => g.2))
      ((gs.flatMap (fun g => g.2)) ++ issues) := by
  intro issues
  induction issues with
  | nil =>
    intro gs
    simp
  | cons i rest ih =>
    intro gs
    rw [List.foldl_cons]
    have h1 := ih (insertIssue gs i)
    have h2 : List.Perm ((insertIssue gs i).flatMap (fun g => g.2) ++ rest)
        ((gs.flatMap (fun g => g.2) ++ [i]) ++ rest) :=
      List.Perm.append_right rest (insertIssue_flat gs i)
    have h3 := h1.trans h2
    rw [List.append_assoc] at h3
    simpa using h3

/-- The grouped map stays keyed by the `file` field. -/
theorem issuesByFile_keyed : ∀ (issues : List AnalysisIssue)
    (gs : List (String × List AnalysisIssue)),
    (∀ g ∈ gs, ∀ j ∈ g.2, j.file = g.1) →
    ∀ g ∈ issues.foldl insertIssue gs, ∀ j ∈ g.2, j.file = g.1 := by
  intro issues
  induction issues with
  | nil =>
    intro gs h
    exact h
  | cons i rest ih =>
    intro gs h
    rw [List.foldl_cons]
    exact ih (insertIssue gs i) (insertIssue_keyed gs i h)

/-- The grouped map has no duplicate keys. -/
theorem issuesByFile_nodup : ∀ (issues : List AnalysisIssue)
    (gs : List (String × List AnalysisIssue)),
    ((gs.map (fun g => g.1)).Nodup) →
    ((issues.foldl insertIssue gs).map (fun g => g.1)).Nodup := by
  intro issues
  induction issues with
  | nil =>
    intro gs h
    exact h
  | cons i rest ih =>
    intro gs h
    rw [List.foldl_cons]
    apply ih
    rw [insertIssue_keys]
    by_cases hmem : i.file ∈ gs.map (fun g => g.1)
    · rw [if_pos hmem]
      exact h
    · rw [if_neg hmem]
      rw [List.nodup_append]
      exact ⟨h, List.nodup_singleton _, by
        intro a ha hb
        simp only [List.mem_singleton] at hb
        subst hb
        exact hmem ha⟩

/-- A key occurs in the grouped map exactly for the files of the issues. -/
theorem issuesByFile_keys : ∀ (issues : List AnalysisIssue)
    (gs : List (String × List AnalysisIssue)) (f : String),
    (f ∈ (issues.foldl insertIssue gs).map (fun g => g.1) ↔
      (f ∈ gs.map (fun g => g.1) ∨ ∃ j ∈ issues, j.file = f)) := by
  intro issues
  induction issues with
  | nil =>
    intro gs f
    simp
  | cons i rest ih =>
    intro gs f
    rw [List.foldl_cons, ih (insertIssue gs i) f, insertIssue_keys]
    by_cases hmem : i.file ∈ gs.map (fun g => g.1)
    · rw [if_pos hmem]
      constructor
      · rintro (hf | hf)
        · exact Or.inl hf
        · exact Or.inr ⟨hf.choose, List.mem_cons_of_mem i hf.choose_spec.1, hf.choose_spec.2⟩
      · rintro (hf | ⟨j, hj, rfl⟩)
        · exact Or.inl hf
        · rcases List.mem_cons.mp hj with rfl | hj
          · exact Or.inl hmem
          · exact Or.inr ⟨j, hj, rfl⟩
    · rw [if_neg hmem]
      constructor
      · rintro (hf | hf)
        · rcases List.mem_append.mp hf with hf | hf
          · exact Or.inl hf
          · simp only [List.mem_singleton] at hf
            exact Or.inr ⟨i, List.mem_cons_self i rest, hf.symm⟩
        · exact Or.inr ⟨hf.choose, List.mem_cons_of_mem i hf.choose_spec.1, hf.choose_spec.2⟩
      · rintro (hf | ⟨j, hj, rfl⟩)
        · exact Or.inl (List.mem_append.mpr (Or.inl hf))
        · rcases List.mem_cons.mp hj with rfl | hj
          · exact Or.inl (List.mem_append.mpr (Or.inr (List.mem_singleton.mpr rfl)))
          · exact Or.inr ⟨j, hj, rfl⟩

/-- Flattening the sorted grouped view recovers the issues up to order. -/
theorem fileGroups_perm (issues : List AnalysisIssue) :
    List.Perm ((fileGroups issues).flatMap (fun g => g.2)) issues := by
  unfold fileGroups
  have h1 : List.Perm
      ((List.insertionSort groupLE ((issuesByFile issues).map
        (fun g => (g.1, List.insertionSort lineLE g.2)))).flatMap (fun g => g.2))
      (((issuesByFile issues).map (fun g => (g.1, List.insertionSort lineLE g.2))).flatMap
        (fun g => g.2)) :=
    List.Perm.flatMap_right _ (List.perm_insertionSort _ _)
  refine h1.trans ?_
  rw [List.flatMap_map]
  have h3 : List.Perm ((issuesByFile issues).flatMap
      (fun g => List.insertionSort lineLE g.2))
      ((issuesByFile issues).flatMap (fun g => g.2)) :=
    List.Perm.flatMap_left _ (fun g _ => List.perm_insertionSort _ _)
  refine h3.trans ?_
  have h4 := issuesByFile_flat issues []
  simpa [issuesByFile] using h4

/-- The keys of the sorted grouped view are those of the grouped map, up to
order. -/
theorem fileGroups_keys_perm (issues : List AnalysisIssue) :
    List.Perm ((fileGroups issues).map (fun g => g.1))
      ((issuesByFile issues).map (fun g => g.1)) := by
  unfold fileGroups
  have h1 := List.Perm.map (fun g : String × List AnalysisIssue => g.1)
    (List.perm_insertionSort groupLE ((issuesByFile issues).map
      (fun g => (g.1, List.insertionSort lineLE g.2))))
  rw [List.map_map] at h1
  simpa [Function.comp] using h1

/-- Every group of the sorted view is keyed by its members' file field. -/
theorem fileGroups_keyed (issues : List AnalysisIssue) :
    ∀ g ∈ fileGroups issues, ∀ i ∈ g.2, i.file = g.1 := by
  intro g hg i hi
  unfold fileGroups at hg
  rw [List.mem_insertionSort, List.mem_map] at hg
  obtain ⟨g0, hg0, rfl⟩ := hg
  have hi0 : i ∈ g0.2 := by
    rw [← List.mem_insertionSort (r := lineLE)]
    exact hi
  exact issuesByFile_keyed issues [] (by simp) g0 hg0 i hi0

/-- The sorted view has no two groups with the same key. -/
theorem fileGroups_nodup (issues : List AnalysisIssue) :
    ((fileGroups issues).map (fun g => g.1)).Nodup := by
  rw [List.Perm.nodup_iff (fileGroups_keys_perm issues)]
  have h := issuesByFile_nodup issues [] (by simp)
  simpa [issuesByFile] using h

/-- The four severity filters partition the issue list. -/
theorem severity_counts (issues : List AnalysisIssue) :
    (errorsOf issues).length + (warningsOf issues).length
      + ((infosOf issues).length + (hintsOf issues).length) = issues.length := by
  induction issues with
  | nil => rfl
  | cons i rest ih =>
    unfold errorsOf warningsOf infosOf hintsOf at ih ⊢
    cases hsev : i.severity <;> simp [List.filter_cons, hsev] <;> omega

/-- C9: the grouped sorted view has one group per distinct file of the
input, groups ordered by the file comparator, each group ascending by line;
on the concrete example the `a.dart` group (line 1 before line 3) precedes
the `b.dart` group. -/
theorem C9_thm :
    (∀ issues : List AnalysisIssue,
      List.Pairwise (fun a b : String × List AnalysisIssue =>
        localeCompare a.1 b.1 ≤ 0) (fileGroups issues))
    ∧ (∀ issues : List AnalysisIssue, ∀ g ∈ fileGroups issues,
      List.Pairwise (fun a b : AnalysisIssue => a.line ≤ b.line) g.2)
    ∧ (∀ (issues : List AnalysisIssue) (f : String),
      f ∈ (fileGroups issues).map (fun g => g.1) ↔ ∃ j ∈ issues, j.file = f)
    ∧ (∀ issues : List AnalysisIssue, ((fileGroups issues).map (fun g => g.1)).Nodup)
    ∧ fileGroups [exB5, exA1, exA3] = [("a.dart", [exA1, exA3]), ("b.dart", [exB5])] := by
  refine ⟨?_, ?_, ?_, fileGroups_nodup, by decide⟩
  · intro issues
    exact List.sorted_insertionSort groupLE _
  · intro issues g hg
    unfold fileGroups at hg
    rw [List.mem_insertionSort, List.mem_map] at hg
    obtain ⟨g0, hg0, rfl⟩ := hg
    exact (List.sorted_insertionSort lineLE g0.2).imp (fun h => (lineLE_iff _ _).mp h)
  · intro issues f
    rw [(fileGroups_keys_perm issues).mem_iff]
    unfold issuesByFile
    rw [issuesByFile_keys issues [] f]
    simp

/-- C9 witness: the theorem applied at the concrete grouping example. -/
theorem C9_wit :
    List.Pairwise (fun a b : AnalysisIssue => a.line ≤ b.line)
      (("a.dart", [exA1, exA3]) : String × List AnalysisIssue).2
    ∧ "a.dart" ∈ (fileGroups [exB5, exA1, exA3]).map (fun g => g.1) :=
  ⟨C9_thm.2.1 [exB5, exA1, exA3] ("a.dart", [exA1, exA3]) (by decide),
   (C9_thm.2.2.1 [exB5, exA1, exA3] "a.dart").mpr ⟨exA1, by decide, by decide⟩⟩

/-- C10: the grouped view is a partition of the input — group sizes sum to
the total, the flattened groups are a permutation of the input, keys are
distinct and every issue sits in the group of its own file — and the three
summary counts (errors, warnings, infos plus hints) also sum to the total. -/
theorem C10_thm :
    (∀ issues : List AnalysisIssue,
      ((fileGroups issues).map (fun g => g.2.length)).sum = issues.length)
    ∧ (∀ issues : List AnalysisIssue,
      List.Perm ((fileGroups issues).flatMap (fun g => g.2)) issues)
    ∧ (∀ issues : List AnalysisIssue,
      ((fileGroups issues).map (fun g => g.1)).Nodup
      ∧ ∀ g ∈ fileGroups issues, ∀ i ∈ g.2, i.file = g.1)
    ∧ (∀ issues : List AnalysisIssue, ∀ i ∈ issues, ∃ g ∈ fileGroups issues,
      g.1 = i.file ∧ i ∈ g.2)
    ∧ (∀ issues : List AnalysisIssue,
      (errorsOf issues).length + (warningsOf issues).length
        + ((infosOf issues).length + (hintsOf issues).length) = issues.length) := by
  refine ⟨?_, fileGroups_perm, ?_, ?_, severity_counts⟩
  · intro issues
    have hp := (fileGroups_perm issues).length_eq
    rw [List.length_flatMap] at hp
    simpa using hp
  · intro issues
    exact ⟨fileGroups_nodup issues, fileGroups_keyed issues⟩
  · intro issues i hi
    have hmem : i ∈ (fileGroups issues).flatMap (fun g => g.2) :=
      (fileGroups_perm issues).mem_iff.mpr hi
    rw [List.mem_flatMap] at hmem
    obtain ⟨g, hg, hig⟩ := hmem
    exact ⟨g, hg, (fileGroups_keyed issues g hg i hig).symm, hig⟩

/-- C10 witness: the theorem applied at the concrete grouping example. -/
theorem C10_wit :
    exA1.file = "a.dart"
    ∧ (errorsOf [exB5, exA1, exA3]).length + (warningsOf [exB5, exA1, exA3]).length
      + ((infosOf [exB5, exA1, exA3]).length + (hintsOf [exB5, exA1, exA3]).length)
      = ([exB5, exA1, exA3] : List AnalysisIssue).length :=
  ⟨(C10_thm.2.2.1 [exB5, exA1, exA3]).2 ("a.dart", [exA1, exA3]) (by decide) exA1 (by decide),
   C10_thm.2.2.2.2 [exB5, exA1, exA3]⟩
